import Mathlib

/-!
Verification of the `simple-cacher` store (`src/lib.rs`).

The cache is a shallow embedding of `SimpleCacher<T, U>`: the backing
`IndexMap<T, SimpleCacheObject<U>>` is modelled as an association list in
insertion order, and the monotonic clock is passed explicitly as a `Nat`
parameter `now` (each entry stores its `created_at` instant, so
`elapsed = now - created_at` with truncated subtraction, matching a
monotonic clock where `created_at ≤ now`).

IndexMap operations are modelled on the association list exactly as the
`indexmap` crate documents them:
  * `get`                 — first entry with the key (`mapGet`);
  * `insert`              — replace the value in place if the key exists
                            (the key keeps its position), else append
                            (`mapInsert`);
  * `shift_remove`        — remove the entry with the key, preserving the
                            order of all other entries (`shiftRemove`);
  * `shift_remove_index 0`— remove the front entry, a no-op on an empty
                            map (`List.tail`).

The `while len >= max_size` eviction loop of `insert` is modelled with
explicit fuel (`evictLoop`): a `none` result means the loop has not
terminated within the given fuel.  `SimpleCacher.insert` supplies fuel
`len + 1`, which is enough whenever the Rust loop terminates at all
(shown below), so `insert = none` exactly models divergence of the Rust
loop.
-/

set_option autoImplicit false

/-- Error type of cache operations, mirroring `SimpleCacheError`. -/
inductive SimpleCacheError where
  | NotFound
  | Expired
deriving DecidableEq

/-- A cached value with its creation instant and per-entry TTL, mirroring
`SimpleCacheObject<U>`. -/
structure SimpleCacheObject (U : Type) where
  created_at : Nat
  value : U
  max_age : Nat
deriving DecidableEq

/-- Mirrors `SimpleCacheObject::is_expired`:
`self.created_at.elapsed() > self.max_age`, with the current instant
passed explicitly. -/
def SimpleCacheObject.is_expired {U : Type} (o : SimpleCacheObject U) (now : Nat) : Bool :=
  decide (o.max_age < now - o.created_at)

/-- The cache, mirroring `SimpleCacher<T, U>`: the `IndexMap` is an
association list in insertion order. -/
structure SimpleCacher (T U : Type) where
  cache : List (T × SimpleCacheObject U)
  max_age : Nat
  max_size : Option Nat
deriving DecidableEq

variable {T U : Type}

/-- Mirrors `IndexMap::get`: the value of the (first) entry with the given
key. -/
def mapGet [DecidableEq T] : List (T × SimpleCacheObject U) → T → Option (SimpleCacheObject U)
  | [], _ => none
  | p :: rest, k => if p.1 = k then some p.2 else mapGet rest k

/-- Mirrors `IndexMap::insert`: if the key exists its value is replaced and
the key keeps its place in the order; otherwise the pair is appended at the
end. -/
def mapInsert [DecidableEq T] :
    List (T × SimpleCacheObject U) → T → SimpleCacheObject U → List (T × SimpleCacheObject U)
  | [], k, o => [(k, o)]
  | p :: rest, k, o => if p.1 = k then (k, o) :: rest else p :: mapInsert rest k o

/-- Mirrors `IndexMap::shift_remove`: the entry with the given key is
removed and the order of all other entries is preserved. -/
def shiftRemove [DecidableEq T] :
    List (T × SimpleCacheObject U) → T → List (T × SimpleCacheObject U)
  | [], _ => []
  | p :: rest, k => if p.1 = k then rest else p :: shiftRemove rest k

/-- Mirrors the eviction loop of `SimpleCacher::insert` /
`insert_with_ttl`: `while self.cache.len() >= max_size
{ self.cache.shift_remove_index(0); }`.  `shift_remove_index(0)` is
`List.tail` (a no-op on an empty map).  Fuel makes the loop total: `none`
means the loop has not terminated within `fuel` iterations. -/
def evictLoop : Nat → Nat → List (T × SimpleCacheObject U) → Option (List (T × SimpleCacheObject U))
  | 0, _, _ => none
  | fuel + 1, n, c => if n ≤ c.length then evictLoop fuel n c.tail else some c

namespace SimpleCacher

/-- Mirrors `SimpleCacher::new`. -/
def new (max_age : Nat) : SimpleCacher T U :=
  { cache := [], max_age := max_age, max_size := none }

/-- Mirrors `SimpleCacher::with_max_size`. -/
def with_max_size (max_age : Nat) (max_size : Nat) : SimpleCacher T U :=
  { cache := [], max_age := max_age, max_size := some max_size }

/-- Mirrors `SimpleCacher::get`: look the key up; absent keys fail
`NotFound`; an expired entry is `shift_remove`d and the call fails
`Expired`; otherwise the entry is returned.  The returned store is the
(possibly updated) receiver. -/
def get [DecidableEq T] (s : SimpleCacher T U) (now : Nat) (k : T) :
    Except SimpleCacheError (SimpleCacheObject U) × SimpleCacher T U :=
  match mapGet s.cache k with
  | none => (Except.error SimpleCacheError.NotFound, s)
  | some obj =>
    if obj.is_expired now then
      (Except.error SimpleCacheError.Expired, { s with cache := shiftRemove s.cache k })
    else
      (Except.ok obj, s)

/-- Mirrors `SimpleCacher::get_mut`: the same lookup, removal and error
logic as `get` (the source bodies differ only in the mutability of the
returned reference). -/
def get_mut [DecidableEq T] (s : SimpleCacher T U) (now : Nat) (k : T) :
    Except SimpleCacheError (SimpleCacheObject U) × SimpleCacher T U :=
  match mapGet s.cache k with
  | none => (Except.error SimpleCacheError.NotFound, s)
  | some obj =>
    if obj.is_expired now then
      (Except.error SimpleCacheError.Expired, { s with cache := shiftRemove s.cache k })
    else
      (Except.ok obj, s)

/-- Mirrors `SimpleCacher::insert`: run the eviction loop when a
`max_size` is set, then `IndexMap::insert` a fresh object carrying the
store's default TTL.  A `none` result models divergence of the eviction
loop. -/
def insert [DecidableEq T] (s : SimpleCacher T U) (now : Nat) (k : T) (v : U) :
    Option (SimpleCacher T U) :=
  match s.max_size with
  | none => some { s with cache := mapInsert s.cache k ⟨now, v, s.max_age⟩ }
  | some n =>
    match evictLoop (s.cache.length + 1) n s.cache with
    | none => none
    | some c => some { s with cache := mapInsert c k ⟨now, v, s.max_age⟩ }

/-- Mirrors `SimpleCacher::insert_with_ttl`: identical to `insert` except
that the new object carries the supplied TTL. -/
def insert_with_ttl [DecidableEq T] (s : SimpleCacher T U) (now : Nat) (k : T) (v : U)
    (ttl : Nat) : Option (SimpleCacher T U) :=
  match s.max_size with
  | none => some { s with cache := mapInsert s.cache k ⟨now, v, ttl⟩ }
  | some n =>
    match evictLoop (s.cache.length + 1) n s.cache with
    | none => none
    | some c => some { s with cache := mapInsert c k ⟨now, v, ttl⟩ }

/-- Mirrors `SimpleCacher::contains_key`:
`self.cache.get(key).map(|obj| !obj.is_expired()).unwrap_or(false)`.  The
source takes `&self`, so the model returns only the boolean: the call
cannot change the store. -/
def contains_key [DecidableEq T] (s : SimpleCacher T U) (now : Nat) (k : T) : Bool :=
  ((mapGet s.cache k).map (fun obj => !obj.is_expired now)).getD false

/-- Mirrors `SimpleCacher::cleanup_expired`: collect the keys of all
expired entries, `shift_remove` each of them, and return how many were
collected. -/
def cleanup_expired [DecidableEq T] (s : SimpleCacher T U) (now : Nat) :
    Nat × SimpleCacher T U :=
  let expired_keys := (s.cache.filter (fun p => p.2.is_expired now)).map Prod.fst
  (expired_keys.length, { s with cache := expired_keys.foldl shiftRemove s.cache })

/-- Mirrors `SimpleCacher::get_by_matcher`: one pass collects the keys of
expired entries and the first non-expired key the matcher accepts; the
expired keys are then `shift_remove`d and the found key is re-fetched from
the cleaned cache (`ok_or(NotFound)`). -/
def get_by_matcher [DecidableEq T] (s : SimpleCacher T U) (now : Nat) (m : T → Bool) :
    Except SimpleCacheError (SimpleCacheObject U) × SimpleCacher T U :=
  let expired_keys := (s.cache.filter (fun p => p.2.is_expired now)).map Prod.fst
  let found_key := (s.cache.find? (fun p => !p.2.is_expired now && m p.1)).map Prod.fst
  let cleaned := expired_keys.foldl shiftRemove s.cache
  match found_key with
  | some k =>
    match mapGet cleaned k with
    | some o => (Except.ok o, { s with cache := cleaned })
    | none => (Except.error SimpleCacheError.NotFound, { s with cache := cleaned })
  | none => (Except.error SimpleCacheError.NotFound, { s with cache := cleaned })

/-- Mirrors `SimpleCacher::get_all_by_matcher`: run `cleanup_expired`
first, then collect the entries that are not expired and whose key the
matcher accepts, in iteration order. -/
def get_all_by_matcher [DecidableEq T] (s : SimpleCacher T U) (now : Nat) (m : T → Bool) :
    List (T × SimpleCacheObject U) × SimpleCacher T U :=
  let s2 := (cleanup_expired s now).2
  (s2.cache.filter (fun p => !p.2.is_expired now && m p.1), s2)

/-- Mirrors `SimpleCacher::len`. -/
def len (s : SimpleCacher T U) : Nat :=
  s.cache.length

end SimpleCacher

/-- Sequential insertion of key/value pairs, used to state properties
about sequences of `insert` calls. -/
def insertSeq [DecidableEq T] (s : SimpleCacher T U) (now : Nat) :
    List (T × U) → Option (SimpleCacher T U)
  | [] => some s
  | (k, v) :: rest =>
    match SimpleCacher.insert s now k v with
    | none => none
    | some s2 => insertSeq s2 now rest

/-! ### Lemmas about the association-list map operations -/

theorem mapGet_eq_none_of_not_mem [DecidableEq T]
    (c : List (T × SimpleCacheObject U)) (k : T) (h : k ∉ c.map Prod.fst) :
    mapGet c k = none := by
  induction c with
  | nil => rfl
  | cons p rest ih =>
    simp only [List.map_cons, List.mem_cons, not_or] at h
    have hne : ¬ p.1 = k := fun hh => h.1 hh.symm
    simp [mapGet, hne, ih h.2]

theorem mapGet_isSome_of_mem [DecidableEq T]
    (c : List (T × SimpleCacheObject U)) (k : T) (h : k ∈ c.map Prod.fst) :
    (mapGet c k).isSome := by
  induction c with
  | nil => simp at h
  | cons p rest ih =>
    simp only [List.map_cons, List.mem_cons] at h
    by_cases hk : p.1 = k
    · simp [mapGet, hk]
    · rcases h with h | h
      · exact absurd h.symm hk
      · simpa [mapGet, hk] using ih h

theorem mem_of_mapGet_eq_some [DecidableEq T]
    (c : List (T × SimpleCacheObject U)) (k : T) (o : SimpleCacheObject U)
    (h : mapGet c k = some o) : (k, o) ∈ c := by
  induction c with
  | nil => simp [mapGet] at h
  | cons p rest ih =>
    rcases p with ⟨a, b⟩
    by_cases hk : a = k
    · subst hk
      simp [mapGet] at h
      subst h
      exact List.mem_cons_self _ _
    · simp only [mapGet, if_neg hk] at h
      exact List.mem_cons_of_mem _ (ih h)

theorem keyInj [DecidableEq T] (c : List (T × SimpleCacheObject U))
    (hnd : (c.map Prod.fst).Nodup) (p q : T × SimpleCacheObject U)
    (hp : p ∈ c) (hq : q ∈ c) (hk : p.1 = q.1) : p = q := by
  induction c with
  | nil => simp at hp
  | cons a rest ih =>
    simp only [List.map_cons, List.nodup_cons] at hnd
    rcases List.mem_cons.mp hp with hp1 | hp1 <;> rcases List.mem_cons.mp hq with hq1 | hq1
    · rw [hp1, hq1]
    · exfalso
      apply hnd.1
      rw [hp1] at hk
      rw [hk]
      exact List.mem_map_of_mem Prod.fst hq1
    · exfalso
      apply hnd.1
      rw [hq1] at hk
      rw [← hk]
      exact List.mem_map_of_mem Prod.fst hp1
    · exact ih hnd.2 hp1 hq1

theorem mapGet_of_mem [DecidableEq T] (c : List (T × SimpleCacheObject U))
    (hnd : (c.map Prod.fst).Nodup) (p : T × SimpleCacheObject U) (hp : p ∈ c) :
    mapGet c p.1 = some p.2 := by
  induction c with
  | nil => simp at hp
  | cons a rest ih =>
    simp only [List.map_cons, List.nodup_cons] at hnd
    rcases List.mem_cons.mp hp with hp1 | hp1
    · simp [mapGet, hp1]
    · have hne : ¬ a.1 = p.1 := by
        intro he
        apply hnd.1
        rw [he]
        exact List.mem_map_of_mem Prod.fst hp1
      simp only [mapGet, if_neg hne]
      exact ih hnd.2 hp1

theorem mapGet_shiftRemove_ne [DecidableEq T]
    (c : List (T × SimpleCacheObject U)) (k k2 : T) (h : k2 ≠ k) :
    mapGet (shiftRemove c k) k2 = mapGet c k2 := by
  induction c with
  | nil => rfl
  | cons p rest ih =>
    by_cases hk : p.1 = k
    · have h2 : ¬ p.1 = k2 := fun he => h (he ▸ hk)
      rw [shiftRemove, if_pos hk, mapGet, if_neg h2]
    · rw [shiftRemove, if_neg hk, mapGet, mapGet]
      by_cases hk2 : p.1 = k2
      · rw [if_pos hk2, if_pos hk2]
      · rw [if_neg hk2, if_neg hk2]
        exact ih

theorem shiftRemove_eq_filter [DecidableEq T]
    (c : List (T × SimpleCacheObject U)) (k : T) (hnd : (c.map Prod.fst).Nodup) :
    shiftRemove c k = c.filter (fun p => !(decide (p.1 = k))) := by
  induction c with
  | nil => rfl
  | cons p rest ih =>
    simp only [List.map_cons, List.nodup_cons] at hnd
    by_cases hk : p.1 = k
    · have hself : rest.filter (fun p => !(decide (p.1 = k))) = rest := by
        apply List.filter_eq_self.mpr
        intro q hq
        simp only [Bool.not_eq_true', decide_eq_false_iff_not]
        intro he
        apply hnd.1
        rw [hk, ← he]
        exact List.mem_map_of_mem Prod.fst hq
      simp [shiftRemove, List.filter_cons, hk, hself]
    · simp [shiftRemove, List.filter_cons, hk, ih hnd.2]

theorem mapGet_shiftRemove_self [DecidableEq T]
    (c : List (T × SimpleCacheObject U)) (k : T) (hnd : (c.map Prod.fst).Nodup) :
    mapGet (shiftRemove c k) k = none := by
  rw [shiftRemove_eq_filter c k hnd]
  apply mapGet_eq_none_of_not_mem
  intro hmem
  rcases List.mem_map.mp hmem with ⟨q, hq, hq1⟩
  rcases List.mem_filter.mp hq with ⟨_, hq2⟩
  simp only [Bool.not_eq_true', decide_eq_false_iff_not] at hq2
  exact hq2 hq1

theorem mapInsert_of_not_mem [DecidableEq T]
    (c : List (T × SimpleCacheObject U)) (k : T) (o : SimpleCacheObject U)
    (h : k ∉ c.map Prod.fst) : mapInsert c k o = c ++ [(k, o)] := by
  induction c with
  | nil => rfl
  | cons p rest ih =>
    simp only [List.map_cons, List.mem_cons, not_or] at h
    have hne : ¬ p.1 = k := fun hh => h.1 hh.symm
    simp [mapInsert, hne, ih h.2]

theorem mapInsert_map_fst_of_mem [DecidableEq T]
    (c : List (T × SimpleCacheObject U)) (k : T) (o : SimpleCacheObject U)
    (h : k ∈ c.map Prod.fst) : (mapInsert c k o).map Prod.fst = c.map Prod.fst := by
  induction c with
  | nil => simp at h
  | cons p rest ih =>
    by_cases hk : p.1 = k
    · simp [mapInsert, hk]
    · simp only [List.map_cons, List.mem_cons] at h
      rcases h with h | h
      · exact absurd h.symm hk
      · simp [mapInsert, hk, ih h]

theorem mapInsert_length_of_mem [DecidableEq T]
    (c : List (T × SimpleCacheObject U)) (k : T) (o : SimpleCacheObject U)
    (h : k ∈ c.map Prod.fst) : (mapInsert c k o).length = c.length := by
  have h2 := congrArg List.length (mapInsert_map_fst_of_mem c k o h)
  simpa using h2

theorem mapInsert_length_le [DecidableEq T]
    (c : List (T × SimpleCacheObject U)) (k : T) (o : SimpleCacheObject U) :
    (mapInsert c k o).length ≤ c.length + 1 := by
  induction c with
  | nil => simp [mapInsert]
  | cons p rest ih =>
    by_cases hk : p.1 = k
    · simp [mapInsert, hk]
    · simpa [mapInsert, hk, Nat.succ_le_succ_iff] using ih

theorem mapGet_mapInsert_self [DecidableEq T]
    (c : List (T × SimpleCacheObject U)) (k : T) (o : SimpleCacheObject U) :
    mapGet (mapInsert c k o) k = some o := by
  induction c with
  | nil => simp [mapInsert, mapGet]
  | cons p rest ih =>
    by_cases hk : p.1 = k
    · simp [mapInsert, mapGet, hk]
    · simp [mapInsert, mapGet, hk, ih]

theorem foldl_shiftRemove_eq_filter [DecidableEq T]
    (ks : List T) (c : List (T × SimpleCacheObject U)) (hnd : (c.map Prod.fst).Nodup) :
    ks.foldl shiftRemove c = c.filter (fun p => !(decide (p.1 ∈ ks))) := by
  induction ks generalizing c with
  | nil => simp
  | cons k ks ih =>
    rw [List.foldl_cons, shiftRemove_eq_filter c k hnd]
    have hsub : ((c.filter (fun p => !(decide (p.1 = k)))).map Prod.fst).Sublist
        (c.map Prod.fst) := (List.filter_sublist c).map Prod.fst
    rw [ih _ (hnd.sublist hsub), List.filter_filter]
    apply List.filter_congr
    intro a _
    by_cases h1 : a.1 = k <;> by_cases h2 : a.1 ∈ ks <;> simp [h1, h2]

theorem removeExpired_eq_filter [DecidableEq T] (c : List (T × SimpleCacheObject U))
    (now : Nat) (hnd : (c.map Prod.fst).Nodup) :
    ((c.filter (fun p => p.2.is_expired now)).map Prod.fst).foldl shiftRemove c
      = c.filter (fun p => !(p.2.is_expired now)) := by
  rw [foldl_shiftRemove_eq_filter _ _ hnd]
  apply List.filter_congr
  intro p hp
  by_cases he : p.2.is_expired now
  · have hmem : p.1 ∈ (c.filter (fun q => q.2.is_expired now)).map Prod.fst :=
      List.mem_map_of_mem Prod.fst (List.mem_filter.mpr ⟨hp, he⟩)
    simp [he, hmem]
  · have hmem : p.1 ∉ (c.filter (fun q => q.2.is_expired now)).map Prod.fst := by
      intro hmem
      rcases List.mem_map.mp hmem with ⟨q, hq, hq1⟩
      rcases List.mem_filter.mp hq with ⟨hq2, hq3⟩
      have hqp : q = p := keyInj c hnd q p hq2 hp hq1
      rw [hqp] at hq3
      exact he hq3
    simp [he, hmem]

theorem cleanup_expired_cache [DecidableEq T] (s : SimpleCacher T U) (now : Nat)
    (hnd : (s.cache.map Prod.fst).Nodup) :
    ((s.cleanup_expired now).2).cache = s.cache.filter (fun p => !(p.2.is_expired now)) := by
  show ((s.cache.filter (fun p => p.2.is_expired now)).map Prod.fst).foldl shiftRemove s.cache = _
  exact removeExpired_eq_filter s.cache now hnd

theorem evictLoop_length_lt (fuel n : Nat) (c c2 : List (T × SimpleCacheObject U))
    (h : evictLoop fuel n c = some c2) : c2.length < n := by
  induction fuel generalizing c with
  | zero => simp [evictLoop] at h
  | succ fuel ih =>
    rw [evictLoop] at h
    by_cases hc : n ≤ c.length
    · rw [if_pos hc] at h
      exact ih _ h
    · rw [if_neg hc] at h
      injection h with h
      rw [← h]
      omega

theorem evictLoop_eq_drop (fuel n : Nat) (c : List (T × SimpleCacheObject U))
    (hn : 1 ≤ n) (hf : c.length < fuel) :
    evictLoop fuel n c = some (c.drop (c.length + 1 - n)) := by
  induction fuel generalizing c with
  | zero => exact absurd hf (Nat.not_lt_zero _)
  | succ fuel ih =>
    rw [evictLoop]
    by_cases hc : n ≤ c.length
    · rw [if_pos hc]
      have hone : 1 ≤ c.length := le_trans hn hc
      have htl : c.tail.length = c.length - 1 := List.length_tail c
      have hlt : c.tail.length < fuel := by omega
      have harith : 1 + (c.length - 1 + 1 - n) = c.length + 1 - n := by omega
      rw [ih c.tail hlt, htl, ← List.drop_one, List.drop_drop, harith]
    · rw [if_neg hc]
      have h0 : c.length + 1 - n = 0 := by omega
      rw [h0, List.drop_zero]

theorem evictLoop_capacity_zero (fuel : Nat) (c : List (T × SimpleCacheObject U)) :
    evictLoop fuel 0 c = none := by
  induction fuel generalizing c with
  | zero => rfl
  | succ fuel ih => simp [evictLoop, ih]

theorem insert_eq_of_capacity_pos [DecidableEq T] (s : SimpleCacher T U) (now : Nat)
    (k : T) (v : U) (n : Nat) (hn : s.max_size = some n) (h1 : 1 ≤ n) :
    s.insert now k v = some { s with
      cache := mapInsert (s.cache.drop (s.cache.length + 1 - n)) k ⟨now, v, s.max_age⟩ } := by
  have hev := evictLoop_eq_drop (s.cache.length + 1) n s.cache h1 (Nat.lt_succ_self _)
  simp only [SimpleCacher.insert, hn, hev]

theorem insert_with_ttl_eq_of_capacity_pos [DecidableEq T] (s : SimpleCacher T U) (now : Nat)
    (k : T) (v : U) (ttl : Nat) (n : Nat) (hn : s.max_size = some n) (h1 : 1 ≤ n) :
    s.insert_with_ttl now k v ttl = some { s with
      cache := mapInsert (s.cache.drop (s.cache.length + 1 - n)) k ⟨now, v, ttl⟩ } := by
  have hev := evictLoop_eq_drop (s.cache.length + 1) n s.cache h1 (Nat.lt_succ_self _)
  simp only [SimpleCacher.insert_with_ttl, hn, hev]

/-- Characterization of `get_by_matcher` on a store with distinct keys: the
cache is cleaned to the non-expired entries, and the result is the entry of
the first non-expired key the matcher accepts. -/
theorem get_by_matcher_eq [DecidableEq T] (s : SimpleCacher T U) (now : Nat) (m : T → Bool)
    (hnd : (s.cache.map Prod.fst).Nodup) :
    s.get_by_matcher now m =
      ((match s.cache.find? (fun q => !q.2.is_expired now && m q.1) with
        | some p => Except.ok p.2
        | none => Except.error SimpleCacheError.NotFound),
       { s with cache := s.cache.filter (fun p => !(p.2.is_expired now)) }) := by
  have hcln := removeExpired_eq_filter s.cache now hnd
  cases hf : s.cache.find? (fun q => !q.2.is_expired now && m q.1) with
  | none =>
    simp only [SimpleCacher.get_by_matcher, hf, Option.map_none', hcln]
  | some p =>
    have hp := List.mem_of_find?_eq_some hf
    have hpred := List.find?_some hf
    have hexp : p.2.is_expired now = false := by
      rcases Bool.and_eq_true_iff.mp hpred with ⟨h1, _⟩
      simpa using h1
    have hpc : p ∈ s.cache.filter (fun q => !(q.2.is_expired now)) :=
      List.mem_filter.mpr ⟨hp, by simp [hexp]⟩
    have hndc : ((s.cache.filter (fun q => !(q.2.is_expired now))).map Prod.fst).Nodup :=
      hnd.sublist ((List.filter_sublist _).map _)
    have hmg : mapGet (s.cache.filter (fun q => !(q.2.is_expired now))) p.1 = some p.2 :=
      mapGet_of_mem _ hndc p hpc
    simp only [SimpleCacher.get_by_matcher, hf, Option.map_some', hcln, hmg]

/-- The eviction loop only ever removes entries from the front: whenever it
terminates, the surviving cache is a suffix of the original one. -/
theorem evictLoop_isSuffix (fuel n : Nat) (c c2 : List (T × SimpleCacheObject U))
    (h : evictLoop fuel n c = some c2) : c2.IsSuffix c := by
  induction fuel generalizing c with
  | zero => simp [evictLoop] at h
  | succ fuel ih =>
    rw [evictLoop] at h
    by_cases hc : n ≤ c.length
    · rw [if_pos hc] at h
      exact (ih _ h).trans (List.tail_suffix c)
    · rw [if_neg hc] at h
      injection h with h
      rw [← h]

/-! ### Claim theorems -/

/-- C1: for every key, `get` (and `get_mut`) fails `NotFound` on an absent
key leaving the store unchanged; on a present but expired entry it removes
exactly that entry and fails `Expired`; on a present live entry it returns
the entry and leaves the store unchanged — so a call never both succeeds
and removes anything. -/
theorem get_and_get_mut_spec [DecidableEq T] (s : SimpleCacher T U) (now : Nat) (k : T)
    (hnd : (s.cache.map Prod.fst).Nodup) :
    (mapGet s.cache k = none →
      s.get now k = (Except.error SimpleCacheError.NotFound, s) ∧
      s.get_mut now k = (Except.error SimpleCacheError.NotFound, s)) ∧
    (∀ o, mapGet s.cache k = some o → o.is_expired now = true →
      s.get now k = (Except.error SimpleCacheError.Expired,
        { s with cache := shiftRemove s.cache k }) ∧
      s.get_mut now k = s.get now k ∧
      mapGet (s.get now k).2.cache k = none ∧
      (∀ k2, k2 ≠ k → mapGet (s.get now k).2.cache k2 = mapGet s.cache k2)) ∧
    (∀ o, mapGet s.cache k = some o → o.is_expired now = false →
      s.get now k = (Except.ok o, s) ∧ s.get_mut now k = (Except.ok o, s)) := by
  refine ⟨?_, ?_, ?_⟩
  · intro h
    constructor <;> simp [SimpleCacher.get, SimpleCacher.get_mut, h]
  · intro o ho he
    have hget : s.get now k = (Except.error SimpleCacheError.Expired,
        { s with cache := shiftRemove s.cache k }) := by
      simp [SimpleCacher.get, ho, he]
    refine ⟨hget, ?_, ?_, ?_⟩
    · rw [hget]
      simp [SimpleCacher.get_mut, ho, he]
    · rw [hget]
      exact mapGet_shiftRemove_self s.cache k hnd
    · intro k2 hk2
      rw [hget]
      exact mapGet_shiftRemove_ne s.cache k k2 hk2
  · intro o ho he
    constructor <;> simp [SimpleCacher.get, SimpleCacher.get_mut, ho, he]

/-- Concrete store for the C1 witness: key 1 is expired at `now = 10`
(TTL 5), key 2 is live (TTL 100). -/
def c1store : SimpleCacher Nat Nat :=
  { cache := [(1, ⟨0, 11, 5⟩), (2, ⟨0, 22, 100⟩)], max_age := 50, max_size := none }

/-- Witness for C1 at `c1store`, `now = 10`, key 1. -/
theorem get_and_get_mut_spec_witness :
    ((c1store.cache.map Prod.fst).Nodup) ∧
    ((mapGet c1store.cache 1 = none →
      c1store.get 10 1 = (Except.error SimpleCacheError.NotFound, c1store) ∧
      c1store.get_mut 10 1 = (Except.error SimpleCacheError.NotFound, c1store)) ∧
    (∀ o, mapGet c1store.cache 1 = some o → o.is_expired 10 = true →
      c1store.get 10 1 = (Except.error SimpleCacheError.Expired,
        { c1store with cache := shiftRemove c1store.cache 1 }) ∧
      c1store.get_mut 10 1 = c1store.get 10 1 ∧
      mapGet (c1store.get 10 1).2.cache 1 = none ∧
      (∀ k2, k2 ≠ 1 → mapGet (c1store.get 10 1).2.cache k2 = mapGet c1store.cache k2)) ∧
    (∀ o, mapGet c1store.cache 1 = some o → o.is_expired 10 = false →
      c1store.get 10 1 = (Except.ok o, c1store) ∧
      c1store.get_mut 10 1 = (Except.ok o, c1store))) :=
  ⟨by decide, get_and_get_mut_spec c1store 10 1 (by decide)⟩

/-- C9: `contains_key` is true exactly when the key is present and its
entry is not expired.  In the source the receiver is `&self`, so the model
returns only the boolean: the call cannot mutate the store (no lazy
removal), which the type of `SimpleCacher.contains_key` makes structural. -/
theorem contains_key_spec [DecidableEq T] (s : SimpleCacher T U) (now : Nat) (k : T) :
    s.contains_key now k = true ↔
      ∃ o, mapGet s.cache k = some o ∧ o.is_expired now = false := by
  cases h : mapGet s.cache k with
  | none => simp [SimpleCacher.contains_key, h]
  | some o => simp [SimpleCacher.contains_key, h]

/-- C8: `cleanup_expired` returns exactly the number of entries expired at
call time, and the surviving cache is exactly the original list filtered to
its non-expired entries — every active entry is untouched (same key, value,
creation time and TTL) and their relative order is preserved; the store's
configuration is untouched too. -/
theorem cleanup_expired_spec [DecidableEq T] (s : SimpleCacher T U) (now : Nat)
    (hnd : (s.cache.map Prod.fst).Nodup) :
    (s.cleanup_expired now).1 = (s.cache.filter (fun p => p.2.is_expired now)).length ∧
    (s.cleanup_expired now).2.cache = s.cache.filter (fun p => !(p.2.is_expired now)) ∧
    (s.cleanup_expired now).2.max_age = s.max_age ∧
    (s.cleanup_expired now).2.max_size = s.max_size := by
  refine ⟨?_, cleanup_expired_cache s now hnd, rfl, rfl⟩
  simp [SimpleCacher.cleanup_expired]

/-- Concrete store for the C8 witness: at `now = 10` key 1 is expired and
keys 2 and 3 are live. -/
def c8store : SimpleCacher Nat Nat :=
  { cache := [(1, ⟨0, 11, 5⟩), (2, ⟨0, 22, 100⟩), (3, ⟨4, 33, 50⟩)],
    max_age := 50, max_size := none }

/-- Witness for C8 at `c8store`, `now = 10`. -/
theorem cleanup_expired_spec_witness :
    ((c8store.cache.map Prod.fst).Nodup) ∧
    ((c8store.cleanup_expired 10).1
        = (c8store.cache.filter (fun p => p.2.is_expired 10)).length ∧
    (c8store.cleanup_expired 10).2.cache
        = c8store.cache.filter (fun p => !(p.2.is_expired 10)) ∧
    (c8store.cleanup_expired 10).2.max_age = c8store.max_age ∧
    (c8store.cleanup_expired 10).2.max_size = c8store.max_size) :=
  ⟨by decide, cleanup_expired_spec c8store 10 (by decide)⟩

/-- C3 (code bug): with `capacity = 0` the eviction loop of `insert` never
terminates — `len() >= 0` always holds and `shift_remove_index(0)` on an
empty map is a no-op — so `insert` on the empty capacity-0 store does not
terminate and never produces a store of size 1: `evictLoop` returns `none`
for every amount of fuel, and the fuelled `insert` yields `none`. -/
theorem capacity_zero_insert_diverges :
    (∀ fuel : Nat, ∀ c : List (Nat × SimpleCacheObject Nat), evictLoop fuel 0 c = none) ∧
    (SimpleCacher.with_max_size 10 0 : SimpleCacher Nat Nat).insert 0 1 1 = none := by
  exact ⟨fun fuel c => evictLoop_capacity_zero fuel c, rfl⟩

/-- Result of inserting keys 1, 2 into an unbounded store and then
re-inserting key 1, used to refute C2 as stated. -/
def c2seq : Option (SimpleCacher Nat Nat) :=
  ((SimpleCacher.new 10 : SimpleCacher Nat Nat).insert 0 1 10).bind
    (fun s => (s.insert 0 2 20).bind (fun s2 => s2.insert 1 1 30))

/-- C2 counterexample: after inserting keys 1 then 2 and re-inserting
key 1, the insertion order is still `[1, 2]` — the re-inserted key has
NOT moved to the most-recently-inserted (last) position, which would be
`[2, 1]`.  `IndexMap::insert` keeps an existing key at its place. -/
theorem reinsert_position_cex :
    c2seq.map (fun s => s.cache.map Prod.fst) = some [1, 2] ∧
    (some [1, 2] : Option (List Nat)) ≠ some [2, 1] := by
  exact ⟨rfl, by decide⟩

/-- C2 amended: re-inserting an existing key replaces its value and
timestamp (and, for `insert_with_ttl`, its TTL), but the key is never
moved while it remains in the store.  With no capacity set the key order
is entirely unchanged.  With capacity `n ≥ 1` the eviction loop first
drops the oldest `len + 1 - n` entries (truncated subtraction, hence none
when below capacity); if the key survives that eviction, the resulting
key order is exactly the survivors' order — the key keeps its place and
does not become the last to be evicted; only if the eviction loop evicts
the key itself is it re-appended at the most-recently-inserted position.
With capacity 0 the call never returns. -/
theorem reinsert_keeps_surviving_position [DecidableEq T] (s : SimpleCacher T U)
    (now : Nat) (k : T) (v : U) (ttl : Nat) (o : SimpleCacheObject U)
    (ho : mapGet s.cache k = some o) :
    (s.max_size = none →
      (∃ s2, s.insert now k v = some s2 ∧
        s2.cache.map Prod.fst = s.cache.map Prod.fst ∧
        mapGet s2.cache k = some ⟨now, v, s.max_age⟩) ∧
      (∃ s2, s.insert_with_ttl now k v ttl = some s2 ∧
        s2.cache.map Prod.fst = s.cache.map Prod.fst ∧
        mapGet s2.cache k = some ⟨now, v, ttl⟩)) ∧
    (∀ n, s.max_size = some n → 1 ≤ n →
      (∃ s2, s.insert now k v = some s2 ∧
        mapGet s2.cache k = some ⟨now, v, s.max_age⟩ ∧
        (k ∈ (s.cache.drop (s.cache.length + 1 - n)).map Prod.fst →
          s2.cache.map Prod.fst = (s.cache.drop (s.cache.length + 1 - n)).map Prod.fst) ∧
        (k ∉ (s.cache.drop (s.cache.length + 1 - n)).map Prod.fst →
          s2.cache.map Prod.fst
            = (s.cache.drop (s.cache.length + 1 - n)).map Prod.fst ++ [k])) ∧
      (∃ s2, s.insert_with_ttl now k v ttl = some s2 ∧
        mapGet s2.cache k = some ⟨now, v, ttl⟩ ∧
        (k ∈ (s.cache.drop (s.cache.length + 1 - n)).map Prod.fst →
          s2.cache.map Prod.fst = (s.cache.drop (s.cache.length + 1 - n)).map Prod.fst) ∧
        (k ∉ (s.cache.drop (s.cache.length + 1 - n)).map Prod.fst →
          s2.cache.map Prod.fst
            = (s.cache.drop (s.cache.length + 1 - n)).map Prod.fst ++ [k]))) ∧
    (s.max_size = some 0 →
      s.insert now k v = none ∧ s.insert_with_ttl now k v ttl = none) := by
  have hmem : k ∈ s.cache.map Prod.fst :=
    List.mem_map_of_mem Prod.fst (mem_of_mapGet_eq_some s.cache k o ho)
  refine ⟨?_, ?_, ?_⟩
  · intro hub
    constructor
    · refine ⟨{ s with cache := mapInsert s.cache k ⟨now, v, s.max_age⟩ }, ?_, ?_, ?_⟩
      · simp [SimpleCacher.insert, hub]
      · exact mapInsert_map_fst_of_mem s.cache k _ hmem
      · exact mapGet_mapInsert_self s.cache k _
    · refine ⟨{ s with cache := mapInsert s.cache k ⟨now, v, ttl⟩ }, ?_, ?_, ?_⟩
      · simp [SimpleCacher.insert_with_ttl, hub]
      · exact mapInsert_map_fst_of_mem s.cache k _ hmem
      · exact mapGet_mapInsert_self s.cache k _
  · intro n hn h1
    constructor
    · refine ⟨{ s with cache := mapInsert (s.cache.drop (s.cache.length + 1 - n)) k ⟨now, v, s.max_age⟩ }, ?_, ?_, ?_, ?_⟩
      · exact insert_eq_of_capacity_pos s now k v n hn h1
      · exact mapGet_mapInsert_self _ _ _
      · intro hks
        exact mapInsert_map_fst_of_mem _ _ _ hks
      · intro hks
        rw [mapInsert_of_not_mem _ _ _ hks, List.map_append]
        simp
    · refine ⟨{ s with cache := mapInsert (s.cache.drop (s.cache.length + 1 - n)) k ⟨now, v, ttl⟩ }, ?_, ?_, ?_, ?_⟩
      · exact insert_with_ttl_eq_of_capacity_pos s now k v ttl n hn h1
      · exact mapGet_mapInsert_self _ _ _
      · intro hks
        exact mapInsert_map_fst_of_mem _ _ _ hks
      · intro hks
        rw [mapInsert_of_not_mem _ _ _ hks, List.map_append]
        simp
  · intro h0
    constructor
    · simp [SimpleCacher.insert, h0, evictLoop_capacity_zero]
    · simp [SimpleCacher.insert_with_ttl, h0, evictLoop_capacity_zero]

/-- Store at its capacity 2 for the C2-amended witness: re-inserting the
surviving key 2 keeps it in place among the survivors. -/
def c2store : SimpleCacher Nat Nat :=
  { cache := [(1, ⟨0, 10, 50⟩), (2, ⟨0, 20, 50⟩)], max_age := 50, max_size := some 2 }

/-- Witness for the amended C2 at `c2store` (bounded, at capacity),
re-inserting key 2: the oldest key 1 is evicted, key 2 survives and keeps
its place among the survivors. -/
theorem reinsert_keeps_surviving_position_witness :
    (mapGet c2store.cache 2 = some ⟨0, 20, 50⟩) ∧
    ((c2store.max_size = none →
      (∃ s2, c2store.insert 7 2 99 = some s2 ∧
        s2.cache.map Prod.fst = c2store.cache.map Prod.fst ∧
        mapGet s2.cache 2 = some ⟨7, 99, c2store.max_age⟩) ∧
      (∃ s2, c2store.insert_with_ttl 7 2 99 3 = some s2 ∧
        s2.cache.map Prod.fst = c2store.cache.map Prod.fst ∧
        mapGet s2.cache 2 = some ⟨7, 99, 3⟩)) ∧
    (∀ n, c2store.max_size = some n → 1 ≤ n →
      (∃ s2, c2store.insert 7 2 99 = some s2 ∧
        mapGet s2.cache 2 = some ⟨7, 99, c2store.max_age⟩ ∧
        (2 ∈ (c2store.cache.drop (c2store.cache.length + 1 - n)).map Prod.fst →
          s2.cache.map Prod.fst
            = (c2store.cache.drop (c2store.cache.length + 1 - n)).map Prod.fst) ∧
        (2 ∉ (c2store.cache.drop (c2store.cache.length + 1 - n)).map Prod.fst →
          s2.cache.map Prod.fst
            = (c2store.cache.drop (c2store.cache.length + 1 - n)).map Prod.fst ++ [2])) ∧
      (∃ s2, c2store.insert_with_ttl 7 2 99 3 = some s2 ∧
        mapGet s2.cache 2 = some ⟨7, 99, 3⟩ ∧
        (2 ∈ (c2store.cache.drop (c2store.cache.length + 1 - n)).map Prod.fst →
          s2.cache.map Prod.fst
            = (c2store.cache.drop (c2store.cache.length + 1 - n)).map Prod.fst) ∧
        (2 ∉ (c2store.cache.drop (c2store.cache.length + 1 - n)).map Prod.fst →
          s2.cache.map Prod.fst
            = (c2store.cache.drop (c2store.cache.length + 1 - n)).map Prod.fst ++ [2]))) ∧
    (c2store.max_size = some 0 →
      c2store.insert 7 2 99 = none ∧ c2store.insert_with_ttl 7 2 99 3 = none)) :=
  ⟨rfl, reinsert_keeps_surviving_position c2store 7 2 99 3 ⟨0, 20, 50⟩ rfl⟩

/-- Store at exactly its capacity 1 holding key 1, used to refute C10 as
stated. -/
def c10store : SimpleCacher Nat Nat :=
  { cache := [(1, ⟨0, 5, 10⟩)], max_age := 10, max_size := some 1 }

/-- C10 counterexample: re-inserting the sole key of a store at capacity
1 evicts that key and appends it again, so the store afterwards holds 1
entry, not `n - 1 = 0` as the claim states. -/
theorem reinsert_at_capacity_cex :
    (c10store.insert 3 1 7).map (fun s => s.cache.length) = some 1 ∧ (1 : Nat) ≠ 1 - 1 := by
  exact ⟨rfl, by decide⟩

/-- C10 amended: at exactly capacity `n ≥ 1`, inserting an already-present
key still runs the eviction loop first, which evicts the front (oldest)
entry.  If that oldest entry is NOT the re-inserted key, the insert then
replaces the still-present key in place and the store holds `n - 1`
entries; if the oldest entry IS the re-inserted key, the key is evicted
and re-appended, and the store holds `n` entries. -/
theorem reinsert_at_capacity [DecidableEq T] (s : SimpleCacher T U) (now : Nat) (k : T)
    (v : U) (n : Nat) (hn : s.max_size = some n) (h1 : 1 ≤ n)
    (hlen : s.cache.length = n) (hnd : (s.cache.map Prod.fst).Nodup)
    (hmem : k ∈ s.cache.map Prod.fst) (p : T × SimpleCacheObject U)
    (hhead : s.cache.head? = some p) :
    ∃ s2, s.insert now k v = some s2 ∧
      (p.1 = k → s2.cache.length = n) ∧ (p.1 ≠ k → s2.cache.length = n - 1) := by
  rw [insert_eq_of_capacity_pos s now k v n hn h1]
  obtain ⟨t, hct⟩ : ∃ t, s.cache = p :: t := by
    cases hc : s.cache with
    | nil =>
      rw [hc] at hhead
      simp at hhead
    | cons q t =>
      rw [hc] at hhead
      simp only [List.head?_cons, Option.some.injEq] at hhead
      exact ⟨t, by rw [hhead]⟩
  have hdrop : s.cache.drop (s.cache.length + 1 - n) = t := by
    have h01 : s.cache.length + 1 - n = 1 := by omega
    rw [h01, hct, List.drop_one, List.tail_cons]
  have htlen : t.length = n - 1 := by
    have := hlen
    rw [hct] at this
    simp at this
    omega
  refine ⟨_, rfl, ?_, ?_⟩
  · intro hpk
    have hknot : k ∉ t.map Prod.fst := by
      rw [hct] at hnd
      simp only [List.map_cons, List.nodup_cons] at hnd
      rw [← hpk]
      exact hnd.1
    simp only [hdrop, mapInsert_of_not_mem t k _ hknot]
    simp [htlen]
    omega
  · intro hpk
    have hkt : k ∈ t.map Prod.fst := by
      rw [hct] at hmem
      simp only [List.map_cons, List.mem_cons] at hmem
      rcases hmem with h | h
      · exact absurd h.symm hpk
      · exact h
    simp only [hdrop, mapInsert_length_of_mem t k _ hkt]
    simp [htlen]

/-- Store at exactly its capacity 2 holding keys 1 and 2, for the
C10-amended witness. -/
def c10bstore : SimpleCacher Nat Nat :=
  { cache := [(1, ⟨0, 5, 10⟩), (2, ⟨0, 6, 10⟩)], max_age := 10, max_size := some 2 }

/-- Witness for the amended C10 at `c10bstore`: re-inserting key 2 (not the
oldest) leaves 1 entry = `n - 1`. -/
theorem reinsert_at_capacity_witness :
    (c10bstore.max_size = some 2) ∧ (1 ≤ 2) ∧ (c10bstore.cache.length = 2) ∧
    ((c10bstore.cache.map Prod.fst).Nodup) ∧ (2 ∈ c10bstore.cache.map Prod.fst) ∧
    (c10bstore.cache.head? = some (1, ⟨0, 5, 10⟩)) ∧
    (∃ s2, c10bstore.insert 4 2 9 = some s2 ∧
      ((1, (⟨0, 5, 10⟩ : SimpleCacheObject Nat)).1 = 2 → s2.cache.length = 2) ∧
      ((1, (⟨0, 5, 10⟩ : SimpleCacheObject Nat)).1 ≠ 2 → s2.cache.length = 2 - 1)) :=
  ⟨rfl, by decide, rfl, by decide, by decide, rfl,
    reinsert_at_capacity c10bstore 4 2 9 2 rfl (by decide) rfl (by decide) (by decide)
      (1, ⟨0, 5, 10⟩) rfl⟩

/-- C4: on any store whose capacity is `some n`, whenever `insert` (or
`insert_with_ttl`) returns, the resulting store holds at most `n`
entries — the eviction loop leaves fewer than `n` entries and the map
insert adds at most one. -/
theorem insert_respects_capacity [DecidableEq T] (s : SimpleCacher T U) (now : Nat)
    (k : T) (v : U) (ttl n : Nat) (hn : s.max_size = some n) :
    (∀ s2, s.insert now k v = some s2 → s2.cache.length ≤ n) ∧
    (∀ s2, s.insert_with_ttl now k v ttl = some s2 → s2.cache.length ≤ n) := by
  constructor
  · intro s2 h
    simp only [SimpleCacher.insert, hn] at h
    cases hev : evictLoop (s.cache.length + 1) n s.cache with
    | none =>
      rw [hev] at h
      simp at h
    | some c =>
      rw [hev] at h
      simp only [Option.some.injEq] at h
      have h1 := evictLoop_length_lt _ _ _ _ hev
      have h2 := mapInsert_length_le c k (⟨now, v, s.max_age⟩ : SimpleCacheObject U)
      rw [← h]
      simpa using le_trans h2 (by omega)
  · intro s2 h
    simp only [SimpleCacher.insert_with_ttl, hn] at h
    cases hev : evictLoop (s.cache.length + 1) n s.cache with
    | none =>
      rw [hev] at h
      simp at h
    | some c =>
      rw [hev] at h
      simp only [Option.some.injEq] at h
      have h1 := evictLoop_length_lt _ _ _ _ hev
      have h2 := mapInsert_length_le c k (⟨now, v, ttl⟩ : SimpleCacheObject U)
      rw [← h]
      simpa using le_trans h2 (by omega)

/-- Store at its capacity 1, for the C4 witness. -/
def c4store : SimpleCacher Nat Nat :=
  { cache := [(5, ⟨0, 55, 10⟩)], max_age := 10, max_size := some 1 }

/-- Witness for C4 at `c4store`: inserting a fresh key 7. -/
theorem insert_respects_capacity_witness :
    (c4store.max_size = some 1) ∧
    ((∀ s2, c4store.insert 2 7 77 = some s2 → s2.cache.length ≤ 1) ∧
     (∀ s2, c4store.insert_with_ttl 2 7 77 3 = some s2 → s2.cache.length ≤ 1)) :=
  ⟨rfl, insert_respects_capacity c4store 2 7 77 3 1 rfl⟩

/-- C6: `get_by_matcher` removes exactly the entries expired at scan time
(whether or not a match was found), and returns the entry of the first key
in iteration order that is non-expired and accepted by the matcher, or
fails `NotFound` when no such key exists. -/
theorem get_by_matcher_spec [DecidableEq T] (s : SimpleCacher T U) (now : Nat)
    (m : T → Bool) (hnd : (s.cache.map Prod.fst).Nodup) :
    (s.get_by_matcher now m).2.cache = s.cache.filter (fun p => !(p.2.is_expired now)) ∧
    (∀ p, s.cache.find? (fun q => !q.2.is_expired now && m q.1) = some p →
      (s.get_by_matcher now m).1 = Except.ok p.2) ∧
    (s.cache.find? (fun q => !q.2.is_expired now && m q.1) = none →
      (s.get_by_matcher now m).1 = Except.error SimpleCacheError.NotFound) := by
  rw [get_by_matcher_eq s now m hnd]
  refine ⟨rfl, ?_, ?_⟩
  · intro p hf
    rw [hf]
  · intro hf
    rw [hf]

/-- Concrete store for the C6 witness: at `now = 10` key 1 is expired,
keys 2 and 3 are live; the matcher accepts keys ≥ 3, so key 3 is the first
live match. -/
def c6store : SimpleCacher Nat Nat :=
  { cache := [(1, ⟨0, 11, 5⟩), (2, ⟨0, 22, 100⟩), (3, ⟨4, 33, 50⟩)],
    max_age := 50, max_size := none }

/-- Witness for C6 at `c6store`, `now = 10`, matcher `3 ≤ k`. -/
theorem get_by_matcher_spec_witness :
    ((c6store.cache.map Prod.fst).Nodup) ∧
    ((c6store.get_by_matcher 10 (fun k => decide (3 ≤ k))).2.cache
        = c6store.cache.filter (fun p => !(p.2.is_expired 10)) ∧
    (∀ p, c6store.cache.find?
        (fun q => !q.2.is_expired 10 && decide (3 ≤ q.1)) = some p →
      (c6store.get_by_matcher 10 (fun k => decide (3 ≤ k))).1 = Except.ok p.2) ∧
    (c6store.cache.find? (fun q => !q.2.is_expired 10 && decide (3 ≤ q.1)) = none →
      (c6store.get_by_matcher 10 (fun k => decide (3 ≤ k))).1
        = Except.error SimpleCacheError.NotFound)) :=
  ⟨by decide, get_by_matcher_spec c6store 10 (fun k => decide (3 ≤ k)) (by decide)⟩

/-- C7: neither matcher query ever returns an entry that was expired at
scan time; `get_all_by_matcher` first removes every currently-expired
entry and then returns exactly the remaining entries whose key satisfies
the matcher, in the store's iteration order. -/
theorem matcher_never_returns_expired [DecidableEq T] (s : SimpleCacher T U) (now : Nat)
    (m : T → Bool) (hnd : (s.cache.map Prod.fst).Nodup) :
    (s.get_all_by_matcher now m).2.cache
        = s.cache.filter (fun p => !(p.2.is_expired now)) ∧
    (s.get_all_by_matcher now m).1
        = (s.cache.filter (fun p => !(p.2.is_expired now))).filter (fun p => m p.1) ∧
    (∀ p, p ∈ (s.get_all_by_matcher now m).1 → p.2.is_expired now = false) ∧
    (∀ o, (s.get_by_matcher now m).1 = Except.ok o → o.is_expired now = false) := by
  have hcl := cleanup_expired_cache s now hnd
  have h2 : (s.get_all_by_matcher now m).2.cache
      = s.cache.filter (fun p => !(p.2.is_expired now)) := hcl
  have h1 : (s.get_all_by_matcher now m).1
      = (s.cache.filter (fun p => !(p.2.is_expired now))).filter (fun p => m p.1) := by
    show ((s.cleanup_expired now).2.cache.filter
        (fun p => !p.2.is_expired now && m p.1)) = _
    rw [hcl, List.filter_filter, List.filter_filter]
    apply List.filter_congr
    intro p _
    by_cases he : p.2.is_expired now <;> by_cases hm : m p.1 <;> simp [he, hm]
  refine ⟨h2, h1, ?_, ?_⟩
  · intro p hp
    rw [h1] at hp
    have hp2 := List.mem_filter.mp (List.mem_filter.mp hp).1
    simpa using hp2.2
  · intro o ho
    rw [get_by_matcher_eq s now m hnd] at ho
    cases hf : s.cache.find? (fun q => !q.2.is_expired now && m q.1) with
    | none =>
      rw [hf] at ho
      simp at ho
    | some p =>
      rw [hf] at ho
      simp only [Except.ok.injEq] at ho
      have hpred := List.find?_some hf
      rcases Bool.and_eq_true_iff.mp hpred with ⟨hh, _⟩
      rw [← ho]
      simpa using hh

/-- Concrete store for the C7 witness: at `now = 10` key 1 is expired and
matches the predicate, keys 2 and 3 are live. -/
def c7store : SimpleCacher Nat Nat :=
  { cache := [(1, ⟨0, 11, 5⟩), (2, ⟨0, 22, 100⟩), (3, ⟨4, 33, 50⟩)],
    max_age := 50, max_size := none }

/-- Witness for C7 at `c7store`, `now = 10`, matcher `k ≤ 2`. -/
theorem matcher_never_returns_expired_witness :
    ((c7store.cache.map Prod.fst).Nodup) ∧
    ((c7store.get_all_by_matcher 10 (fun k => decide (k ≤ 2))).2.cache
        = c7store.cache.filter (fun p => !(p.2.is_expired 10)) ∧
    (c7store.get_all_by_matcher 10 (fun k => decide (k ≤ 2))).1
        = (c7store.cache.filter (fun p => !(p.2.is_expired 10))).filter
            (fun p => decide (p.1 ≤ 2)) ∧
    (∀ p, p ∈ (c7store.get_all_by_matcher 10 (fun k => decide (k ≤ 2))).1 →
      p.2.is_expired 10 = false) ∧
    (∀ o, (c7store.get_by_matcher 10 (fun k => decide (k ≤ 2))).1 = Except.ok o →
      o.is_expired 10 = false)) :=
  ⟨by decide, matcher_never_returns_expired c7store 10 (fun k => decide (k ≤ 2)) (by decide)⟩

theorem insertSeq_append [DecidableEq T] (l1 l2 : List (T × U)) (s : SimpleCacher T U)
    (now : Nat) :
    insertSeq s now (l1 ++ l2) =
      match insertSeq s now l1 with
      | none => none
      | some s2 => insertSeq s2 now l2 := by
  induction l1 generalizing s with
  | nil => simp [insertSeq]
  | cons q l1 ih =>
    rcases q with ⟨k, v⟩
    simp only [List.cons_append, insertSeq]
    cases s.insert now k v with
    | none => rfl
    | some s2 => exact ih s2

/-- Inserting a list of pairwise-distinct keys into a fresh capacity-`n`
store (`n ≥ 1`) always succeeds, and the resulting insertion order is the
suffix of the inserted keys that survives FIFO eviction. -/
theorem insertSeq_fresh [DecidableEq T] (a now n : Nat) (h1 : 1 ≤ n) (kvs : List (T × U))
    (hnd : (kvs.map Prod.fst).Nodup) :
    ∃ s2, insertSeq (SimpleCacher.with_max_size a n : SimpleCacher T U) now kvs = some s2 ∧
      s2.max_size = some n ∧ s2.max_age = a ∧
      s2.cache.map Prod.fst = (kvs.map Prod.fst).drop (kvs.length - n) := by
  induction kvs using List.reverseRecOn with
  | nil =>
    exact ⟨_, rfl, rfl, rfl, by simp [SimpleCacher.with_max_size]⟩
  | append_singleton kvs q ih =>
    rcases q with ⟨k, v⟩
    have hnd2 : ((kvs.map Prod.fst) ++ [k]).Nodup := by simpa using hnd
    rcases List.nodup_append.mp hnd2 with ⟨hnd1, _, hdisj⟩
    have hqnot : k ∉ kvs.map Prod.fst := fun hmem =>
      hdisj hmem (List.mem_singleton.mpr rfl)
    obtain ⟨s2, hseq, hms, hma, hkeys⟩ := ih hnd1
    have hL : s2.cache.length = kvs.length - (kvs.length - n) := by
      have hh := congrArg List.length hkeys
      simpa using hh
    have hins := insert_eq_of_capacity_pos s2 now k v n hms h1
    have hfresh : k ∉ (s2.cache.drop (s2.cache.length + 1 - n)).map Prod.fst := by
      intro hmem
      apply hqnot
      rw [List.map_drop] at hmem
      have hmem2 := List.mem_of_mem_drop hmem
      rw [hkeys] at hmem2
      exact List.mem_of_mem_drop hmem2
    have hjkeys : (s2.cache.drop (s2.cache.length + 1 - n)).map Prod.fst
        = (kvs.map Prod.fst).drop (kvs.length + 1 - n) := by
      rw [List.map_drop, hkeys, List.drop_drop]
      congr 1
      omega
    have hlen1 : (kvs ++ [(k, v)]).length = kvs.length + 1 := by simp
    have htarget : ((kvs ++ [(k, v)]).map Prod.fst).drop ((kvs ++ [(k, v)]).length - n)
        = (kvs.map Prod.fst).drop (kvs.length + 1 - n) ++ [k] := by
      rw [List.map_append, hlen1, List.drop_append_eq_append_drop, List.length_map]
      have h0 : kvs.length + 1 - n - kvs.length = 0 := by omega
      rw [h0, List.drop_zero]
      simp
    refine ⟨{ s2 with cache := mapInsert (s2.cache.drop (s2.cache.length + 1 - n)) k ⟨now, v, s2.max_age⟩ }, ?_, hms, hma, ?_⟩
    · rw [insertSeq_append, hseq]
      simp only [insertSeq, hins]
    · show (mapInsert (s2.cache.drop (s2.cache.length + 1 - n)) k ⟨now, v, s2.max_age⟩).map Prod.fst = _
      rw [mapInsert_of_not_mem _ _ _ hfresh, List.map_append, hjkeys, htarget]
      simp

/-- C5: inserting `n + 1` pairwise-distinct keys in order into a fresh
store of capacity `n ≥ 1` leaves the first key absent and all the others
present, in their insertion order; moreover the eviction loop only ever
removes entries from the front of the insertion order (the survivors are a
suffix), irrespective of access recency. -/
theorem fifo_eviction [DecidableEq T] (a now n : Nat) (h1 : 1 ≤ n) (kvs : List (T × U))
    (hlen : kvs.length = n + 1) (hnd : (kvs.map Prod.fst).Nodup) (k1 : T)
    (hk1 : (kvs.map Prod.fst).head? = some k1) :
    (∃ s2, insertSeq (SimpleCacher.with_max_size a n : SimpleCacher T U) now kvs = some s2 ∧
      s2.cache.map Prod.fst = (kvs.map Prod.fst).tail ∧
      mapGet s2.cache k1 = none ∧
      (∀ k, k ∈ (kvs.map Prod.fst).tail → (mapGet s2.cache k).isSome = true)) ∧
    (∀ fuel n2 (c c2 : List (T × SimpleCacheObject U)),
      evictLoop fuel n2 c = some c2 → c2.IsSuffix c) := by
  refine ⟨?_, fun fuel n2 c c2 h => evictLoop_isSuffix fuel n2 c c2 h⟩
  obtain ⟨s2, hseq, _, _, hkeys⟩ := insertSeq_fresh a now n h1 kvs hnd
  have hidx : kvs.length - n = 1 := by omega
  rw [hidx, List.drop_one] at hkeys
  obtain ⟨t, hkt⟩ : ∃ t, kvs.map Prod.fst = k1 :: t := by
    cases hc : kvs.map Prod.fst with
    | nil =>
      rw [hc] at hk1
      simp at hk1
    | cons x t =>
      rw [hc] at hk1
      simp only [List.head?_cons, Option.some.injEq] at hk1
      exact ⟨t, by rw [hk1]⟩
  refine ⟨s2, hseq, hkeys, ?_, ?_⟩
  · apply mapGet_eq_none_of_not_mem
    rw [hkeys, hkt, List.tail_cons]
    rw [hkt] at hnd
    exact (List.nodup_cons.mp hnd).1
  · intro k hk
    apply mapGet_isSome_of_mem
    rw [hkeys]
    exact hk

/-- Witness for C5: capacity 1, keys 1 then 2; key 1 is evicted. -/
theorem fifo_eviction_witness :
    (1 ≤ 1) ∧ (([(1, 10), (2, 20)] : List (Nat × Nat)).length = 1 + 1) ∧
    ((([(1, 10), (2, 20)] : List (Nat × Nat)).map Prod.fst).Nodup) ∧
    ((([(1, 10), (2, 20)] : List (Nat × Nat)).map Prod.fst).head? = some 1) ∧
    ((∃ s2, insertSeq (SimpleCacher.with_max_size 5 1 : SimpleCacher Nat Nat) 0
          [(1, 10), (2, 20)] = some s2 ∧
      s2.cache.map Prod.fst = (([(1, 10), (2, 20)] : List (Nat × Nat)).map Prod.fst).tail ∧
      mapGet s2.cache 1 = none ∧
      (∀ k, k ∈ (([(1, 10), (2, 20)] : List (Nat × Nat)).map Prod.fst).tail →
        (mapGet s2.cache k).isSome = true)) ∧
    (∀ fuel n2 (c c2 : List (Nat × SimpleCacheObject Nat)),
      evictLoop fuel n2 c = some c2 → c2.IsSuffix c)) :=
  ⟨by decide, by decide, by decide, rfl,
    fifo_eviction 5 0 1 (by decide) [(1, 10), (2, 20)] (by decide) (by decide) 1 rfl⟩
